import Mathlib

set_option autoImplicit false

/-!
# Verification of the resumable RPM-walker userscript and the table-scrape script

This file shallowly embeds the two browser scripts of the repository:

* the EPEL 9 RPM auto-downloader userscript (the "resumable walker"): a
  `main` function that, on each page load, reads a persisted worklist and
  cursor from session storage, and either prompts for input, navigates to
  the folder for the current package, searches the page's anchors for a
  matching `.rpm` file, downloads the first match, or clears the state when
  the walk is complete;
* the package-table scraper: an IIFE that reads a header row and body rows,
  trims cell texts, drops the first cell of each body row, builds a
  JS-object record per row, filters rows with no non-empty value, and
  serializes the result to CSV with filename `data.csv`.

Browser state (session storage, location, anchor list, the prompt reply)
is passed explicitly; DOM side effects (alert, console output, navigation,
download clicks, sleeping, reloading) are recorded as a trace of `Effect`s.
Executions the model does not cover (JS exceptions such as indexing into an
undefined value, and regular-expression constructs outside the modelled
fragment) are mapped to `none`.
-/

namespace Walker

/-! ## The constructed regular expression

The script builds a JavaScript regex from a template:
`new RegExp("^" + pkg + "[-].*\\.rpm$", "i")` and uses `regex.test(href)`.
The package name `pkg` is spliced into the pattern as regex *source text*,
so its characters are interpreted by the regex engine.  We compile the
spliced text into a list of single-character-wide atoms
(`compileAtoms`): an ordinary character becomes a literal atom, `.`
becomes the any-character atom (which, per JS semantics without the `s`
flag, matches every character except a line terminator), and a backslash
followed by a non-alphanumeric character becomes a literal atom for that
character.  All remaining regex syntax (quantifiers, classes, groups,
alternation, anchors, alphanumeric escapes) is outside the modelled
fragment and compilation returns `none`.

Because each atom matches exactly one character, the whole pattern
`^<atoms>[-].*\.rpm$` has a forced decomposition on any subject string:
the first `atoms.length` characters against the atoms, then one `-`, then
an arbitrary run of non-line-terminator characters, then the literal
`.rpm` at the end.  `rpmMatch` computes exactly that.  The `i` flag is
modelled by case-folding both sides with `Char.toLower` (the package names
and file names involved are ASCII). -/

/-- Characters with a special meaning in JS regex source text. -/
def regexMeta : List Char :=
  ['^', '$', '\\', '.', '*', '+', '?', '(', ')', '[', ']', '\x7b', '\x7d', '|']

/-- A single-character-wide regex atom. -/
inductive Atom where
  | lit (c : Char)
  | anyc
deriving DecidableEq

/-- JS line terminators, which `.` does not match (no `s` flag). -/
def isLineTerm (c : Char) : Bool :=
  c = '\n' || c = '\r' || c = '\u2028' || c = '\u2029'

/-- Whether an atom matches one subject character (case-insensitively). -/
def atomMatches : Atom → Char → Bool
  | .lit c, d => c == d.toLower
  | .anyc, d => !(isLineTerm d)

/-- Interpret the spliced package name as regex source text, within the
modelled single-character-atom fragment.  Literal atoms are stored already
case-folded. -/
def compileAtoms : List Char → Option (List Atom)
  | [] => some []
  | c :: rest =>
    if c = '\\' then
      match rest with
      | [] => none
      | d :: rest2 =>
        if d.isAlphanum then none
        else (compileAtoms rest2).map (fun as => Atom.lit d.toLower :: as)
    else if c = '.' then (compileAtoms rest).map (fun as => Atom.anyc :: as)
    else if c ∈ regexMeta then none
    else (compileAtoms rest).map (fun as => Atom.lit c.toLower :: as)

/-- A fixed-width sequence of atoms against a character list of the same
length. -/
def matchesAtoms : List Atom → List Char → Bool
  | [], [] => true
  | a :: as, c :: cs => atomMatches a c && matchesAtoms as cs
  | _, _ => false

/-- Case-fold a character list. -/
def lowerList (cs : List Char) : List Char := cs.map Char.toLower

/-- `regex.test` for the pattern `^<atoms>[-].*\.rpm$` with the `i` flag:
the forced decomposition described above. -/
def rpmMatch (atoms : List Atom) (cs : List Char) : Bool :=
  matchesAtoms atoms (cs.take atoms.length) &&
  match cs.drop atoms.length with
  | [] => false
  | c :: rest =>
    (c.toLower == '-') &&
    decide (4 ≤ rest.length) &&
    ((rest.take (rest.length - 4)).all fun d => !(isLineTerm d)) &&
    (lowerList (rest.drop (rest.length - 4)) == ['.', 'r', 'p', 'm'])

/-- The target-location predicate of the script, as a function of the raw
package name: `none` when the spliced name uses regex syntax outside the
modelled fragment. -/
def rpmTest (pkg href : String) : Option Bool :=
  (compileAtoms pkg.toList).map (fun atoms => rpmMatch atoms href.toList)

/-! ## The specification's reading of the predicate

The spec describes the match as: the filename starts with the item name
followed by a `-` separator and ends in `.rpm`, case-insensitively.  This
definition follows the spec's words, for comparison with `rpmTest`. -/

/-- Boolean list-prefix test. -/
def startsWithL (p l : List Char) : Bool := l.take p.length == p

/-- Boolean list-suffix test. -/
def endsWithL (s l : List Char) : Bool := l.drop (l.length - s.length) == s

/-- The matching predicate as the spec words it: starts with the item name
then `-`, and ends in `.rpm`, case-insensitively. -/
def specMatch (pkg f : String) : Bool :=
  startsWithL (lowerList pkg.toList ++ ['-']) (lowerList f.toList) &&
  endsWithL ['.', 'r', 'p', 'm'] (lowerList f.toList)

/-! ## Walker state, environment, effects -/

/-- Observable side effects of one invocation, in program order. -/
inductive Effect where
  | prompt (msg : String)
  | alert (msg : String)
  | logMsg (msg : String)
  | warn (msg : String)
  | navigate (url : String)
  | download (url : String)
  | sleep (ms : Nat)
  | reload
deriving DecidableEq

/-- The two session-storage entries, already decoded: `pkgs` is the JSON
round-trip of the `epel9_rpm_packages` entry, `idx` the `parseInt` of the
`epel9_rpm_index` entry (`none` = entry absent). -/
structure Storage where
  pkgs : Option (List String)
  idx : Option Nat
deriving DecidableEq

/-- The browser environment an invocation reads: location pathname and
href, the `href` attribute of each anchor in document order (`none` for an
anchor without the attribute), and the reply the user would give to the
prompt (`none` = cancel). -/
structure Env where
  pathname : String
  href : String
  anchors : List (Option String)
  promptResult : Option String
deriving DecidableEq

/-- An invocation's outcome: the session storage it leaves behind and the
effect trace it produced. -/
structure StepResult where
  storage : Storage
  effects : List Effect
deriving DecidableEq

def baseUrl : String := "https://dl.fedoraproject.org"

def promptMsg : String :=
  "Enter a comma-separated list of EPEL 9 RPM package names (e.g. nano,vim,libappindicator):"

def noneEnteredMsg : String := "No packages entered. Script will not run."

def noValidMsg : String := "No valid packages entered."

def startingMsg (n : Nat) : String :=
  "Starting download of " ++ toString n ++ " packages..."

def doneMsg : String := "All packages processed!"

def navMsg (pkg : String) : String :=
  "Navigating to directory for package \"" ++ pkg ++ "\"..."

def noRpmMsg (pkg : String) : String :=
  "No RPM found for package \"" ++ pkg ++ "\""

def downloadingMsg (url : String) : String := "Downloading: " ++ url

/-- The whitespace characters `String.prototype.trim` removes (ASCII
whitespace, NBSP, BOM and the line terminators; the rarer Unicode space
separators are outside the modelled character set). -/
def isJsSpace (c : Char) : Bool :=
  c = ' ' || c = '\t' || c = '\n' || c = '\r' || c = '\x0b' || c = '\x0c' ||
  c = '\u00a0' || c = '\ufeff' || c = '\u2028' || c = '\u2029'

/-- `input.split(',')` on the character list: split at every comma,
keeping empty fields (so the empty input gives one empty field). -/
def splitOnComma : List Char → List (List Char)
  | [] => [[]]
  | c :: rest =>
    if c = ',' then [] :: splitOnComma rest
    else
      match splitOnComma rest with
      | [] => [[c]]
      | t :: ts => (c :: t) :: ts

/-- `s.trim()`: drop whitespace from both ends. -/
def trimChars (cs : List Char) : List Char :=
  ((cs.dropWhile isJsSpace).reverse.dropWhile isJsSpace).reverse

/-- `s.trim()` as a string-to-string function. -/
def jsTrim (s : String) : String := String.mk (trimChars s.toList)

/-- `input.split(',').map(p => p.trim()).filter(Boolean)` -/
def parsePackages (input : String) : List String :=
  (((splitOnComma input.toList).map trimChars).map (fun cs => String.mk cs)).filter
    (fun p => p != "")

/-- Lines 42–49: `packages[index]`, guarded by `index >= packages.length`
(the `Done` test).  `none` is the terminal `Done` signal. -/
def currentItem (packages : List String) (index : Nat) : Option String :=
  if packages.length ≤ index then none else packages[index]?

/-- The folder expected for a first letter:
`/pub/epel/9/Everything/x86_64/Packages/<firstLetter>/`. -/
def expectedPath (firstLetter : Char) : String :=
  "/pub/epel/9/Everything/x86_64/Packages/" ++ String.singleton firstLetter ++ "/"

/-- `s.startsWith(p)` on JS strings. -/
def strStartsWith (s p : String) : Bool := s.toList.take p.toList.length == p.toList

/-- `removeItem` on both session-storage keys (lines 44–45). -/
def clearStorage (_s : Storage) : Storage := ⟨none, none⟩

/-- The anchor filter `href => href && regex.test(href)`: a missing
attribute and the empty string are falsy. -/
def hrefOk (atoms : List Atom) : Option String → Bool
  | none => false
  | some h => (h != "") && rpmMatch atoms h.toList

/-- `anchors.map(a => a.getAttribute('href')).filter(href => href && regex.test(href))` -/
def matchedLinks (atoms : List Atom) (anchors : List (Option String)) : List String :=
  (anchors.filter (hrefOk atoms)).filterMap (fun o => o)

/-- The target the script downloads: the head of `matchedLinks`. -/
def locateTarget (atoms : List Atom) (anchors : List (Option String)) : Option String :=
  (matchedLinks atoms anchors).head?

/-- Lines 63–92: search the listing; on no match warn, advance the cursor
and reload immediately; on a match log and download
`window.location.href + matchedLinks[0]`, advance the cursor, sleep 3000 ms
and reload. -/
def processListing (env : Env) (packages : List String) (index : Nat) (pkg : String)
    (atoms : List Atom) : StepResult :=
  match matchedLinks atoms env.anchors with
  | [] =>
    ⟨⟨some packages, some (index + 1)⟩,
     [Effect.warn (noRpmMsg pkg), Effect.reload]⟩
  | first :: _ =>
    ⟨⟨some packages, some (index + 1)⟩,
     [Effect.logMsg (downloadingMsg (env.href ++ first)),
      Effect.download (env.href ++ first), Effect.sleep 3000, Effect.reload]⟩

/-- Lines 42–92, after the worklist and cursor are in hand; `pre` is the
effect trace already produced by the input-collection block.  `none`
models an execution outside the model: `pkg[0].toLowerCase()` on an empty
string throws, and a spliced regex outside the modelled fragment. -/
def walk (env : Env) (packages : List String) (index : Nat) (pre : List Effect) :
    Option StepResult :=
  match currentItem packages index with
  | none =>
    some ⟨clearStorage ⟨some packages, some index⟩, pre ++ [Effect.alert doneMsg]⟩
  | some pkg =>
    match pkg.toList.head? with
    | none => none
    | some c0 =>
      if !(strStartsWith env.pathname (expectedPath c0.toLower)) then
        some ⟨⟨some packages, some index⟩,
          pre ++ [Effect.logMsg (navMsg pkg),
                  Effect.navigate (baseUrl ++ expectedPath c0.toLower)]⟩
      else
        match compileAtoms pkg.toList with
        | none => none
        | some atoms =>
          some ⟨(processListing env packages index pkg atoms).storage,
                pre ++ (processListing env packages index pkg atoms).effects⟩

/-- One invocation of `main` (lines 21–92). -/
def step (env : Env) (s : Storage) : Option StepResult :=
  match s.pkgs with
  | some packages =>
    match s.idx with
    | none => none
    | some index => walk env packages index []
  | none =>
    match env.promptResult with
    | none => some ⟨s, [Effect.prompt promptMsg, Effect.alert noneEnteredMsg]⟩
    | some input =>
      if input = "" then
        some ⟨s, [Effect.prompt promptMsg, Effect.alert noneEnteredMsg]⟩
      else
        match parsePackages input with
        | [] => some ⟨s, [Effect.prompt promptMsg, Effect.alert noValidMsg]⟩
        | p :: ps =>
          walk env (p :: ps) 0
            [Effect.prompt promptMsg, Effect.alert (startingMsg (p :: ps).length)]

/-- The download URLs appearing in an effect trace, in order. -/
def downloadsOf (es : List Effect) : List String :=
  es.filterMap (fun e => match e with | Effect.download u => some u | _ => none)

end Walker

namespace Walker

/-! ## Helper lemmas -/

theorem currentItem_eq_get (W : List String) (c : Nat) (h : c < W.length) :
    currentItem W c = some (W.get ⟨c, h⟩) := by
  simp [currentItem, Nat.not_le.mpr h, List.getElem?_eq_getElem h]

theorem currentItem_eq_none (W : List String) (c : Nat) (h : W.length ≤ c) :
    currentItem W c = none := by
  simp [currentItem, h]

end Walker

namespace Walker

/-! ## Claims C1, C6, C7, C8, C10 -/

/-- C1: for every worklist `W` and cursor `c` with `c < W.length`, the
current-item lookup (lines 42–49) returns `W[c]`, which the walker then
processes; for `c ≥ W.length` it returns the terminal `Done` signal
(`none`) instead of an item. -/
theorem claim1_currentItem (W : List String) (c : Nat) :
    (∀ h : c < W.length, currentItem W c = some (W.get ⟨c, h⟩)) ∧
    (W.length ≤ c → currentItem W c = none) :=
  ⟨fun h => currentItem_eq_get W c h, fun h => currentItem_eq_none W c h⟩

theorem claim1_currentItem_witness :
    currentItem ["nano", "vim"] 0 = some "nano" ∧ currentItem ["nano", "vim"] 5 = none :=
  ⟨(claim1_currentItem ["nano", "vim"] 0).1 (by decide),
   (claim1_currentItem ["nano", "vim"] 5).2 (by decide)⟩

/-- C6: initialization splits the raw input on commas, trims each token and
drops empty tokens; when the prompt is cancelled, returns the empty string,
or yields zero items, the user gets a single alert and the invocation ends
with the persisted state exactly as it was (nothing written). -/
theorem claim6_emptyInput (env : Env) (s : Storage) (hp : s.pkgs = none)
    (h : env.promptResult = none ∨ env.promptResult = some "" ∨
         ∃ input, env.promptResult = some input ∧ parsePackages input = []) :
    (∀ input, parsePackages input =
        (((splitOnComma input.toList).map trimChars).map (fun cs => String.mk cs)).filter
          (fun p => p != "")) ∧
    ∃ m, step env s = some ⟨s, [Effect.prompt promptMsg, Effect.alert m]⟩ := by
  refine ⟨fun _ => rfl, ?_⟩
  rcases h with h | h | ⟨input, h1, h2⟩
  · exact ⟨noneEnteredMsg, by simp [step, hp, h]⟩
  · exact ⟨noneEnteredMsg, by simp [step, hp, h]⟩
  · by_cases hi : input = ""
    · exact ⟨noneEnteredMsg, by simp [step, hp, h1, hi]⟩
    · exact ⟨noValidMsg, by simp [step, hp, h1, hi, h2]⟩

theorem claim6_emptyInput_witness :
    ∃ m, step ⟨"/", "u", [], some ", ,"⟩ ⟨none, none⟩ =
      some ⟨⟨none, none⟩, [Effect.prompt promptMsg, Effect.alert m]⟩ :=
  (claim6_emptyInput ⟨"/", "u", [], some ", ,"⟩ ⟨none, none⟩ rfl
    (Or.inr (Or.inr ⟨", ,", rfl, by decide⟩))).2

/-- C7: when the current location is not in the folder expected for the
current item, the walker logs and issues a navigation to that folder and
the invocation ends with the persisted worklist and cursor unchanged — no
cursor advance, no download, no reload. -/
theorem claim7_navigation (env : Env) (W : List String) (c : Nat) (pkg : String) (c0 : Char)
    (hcur : currentItem W c = some pkg)
    (hhead : pkg.toList.head? = some c0)
    (hmis : strStartsWith env.pathname (expectedPath c0.toLower) = false) :
    step env ⟨some W, some c⟩ =
      some ⟨⟨some W, some c⟩,
        [Effect.logMsg (navMsg pkg), Effect.navigate (baseUrl ++ expectedPath c0.toLower)]⟩ := by
  have hhead2 : pkg.data.head? = some c0 := hhead
  simp [step, walk, hcur, hhead2, hmis]

theorem claim7_navigation_witness :
    step ⟨"/", "u", [], none⟩ ⟨some ["nano"], some 0⟩ =
      some ⟨⟨some ["nano"], some 0⟩,
        [Effect.logMsg (navMsg "nano"),
         Effect.navigate (baseUrl ++ expectedPath 'n')]⟩ :=
  claim7_navigation ⟨"/", "u", [], none⟩ ["nano"] 0 "nano" 'n' (by decide) rfl (by decide)

/-- C8: invoking the walker with cursor ≥ worklist length clears both
persisted entries together, emits the single completion alert and performs
no navigation, download or reload; the clearing operation is idempotent,
so re-entering the `Done` state leaves the cleared state unchanged. -/
theorem claim8_done (env : Env) (W : List String) (c : Nat) (h : W.length ≤ c) :
    step env ⟨some W, some c⟩ = some ⟨⟨none, none⟩, [Effect.alert doneMsg]⟩ ∧
    (∀ s : Storage, clearStorage (clearStorage s) = clearStorage s) := by
  refine ⟨?_, fun s => rfl⟩
  simp [step, walk, currentItem_eq_none W c h, clearStorage]

theorem claim8_done_witness :
    step ⟨"/x", "u", [], none⟩ ⟨some ["nano"], some 5⟩ =
      some ⟨⟨none, none⟩, [Effect.alert doneMsg]⟩ ∧
    (∀ s : Storage, clearStorage (clearStorage s) = clearStorage s) :=
  claim8_done ⟨"/x", "u", [], none⟩ ["nano"] 5 (by decide)

/-- C10 (implicit): initialization only persists non-empty item strings, so
for every cursor in range the current item is a non-empty string and
reading its first character (line 50) is defined. -/
theorem claim10_firstChar (input : String) :
    (∀ p ∈ parsePackages input, p ≠ "") ∧
    (∀ c, c < (parsePackages input).length →
      ∃ pkg, currentItem (parsePackages input) c = some pkg ∧
        pkg.toList.head?.isSome = true) := by
  have hne : ∀ p ∈ parsePackages input, p ≠ "" := by
    intro p hp
    have hb := List.of_mem_filter hp
    simpa using hb
  refine ⟨hne, fun c hc => ?_⟩
  refine ⟨(parsePackages input).get ⟨c, hc⟩, currentItem_eq_get _ c hc, ?_⟩
  have hmem := List.get_mem (parsePackages input) c hc
  have hne2 := hne _ hmem
  cases hl : ((parsePackages input).get ⟨c, hc⟩).toList with
  | nil =>
    have hdata : ((parsePackages input).get ⟨c, hc⟩).data = ("" : String).data := hl
    exact absurd (String.ext hdata) hne2
  | cons a l => simp [hl]

theorem claim10_firstChar_witness :
    ∃ pkg, currentItem (parsePackages "nano, vim") 0 = some pkg ∧
      pkg.toList.head?.isSome = true :=
  (claim10_firstChar "nano, vim").2 0 (by decide)

end Walker

namespace Walker

/-! ## Invocation-shape inversion lemmas -/

/-- Inversion for `walk`: the storage and effect trace of every successful
invocation of lines 42–92 has one of four shapes (done, navigate,
not-found, download). -/
theorem walk_cases (env : Env) (W : List String) (c : Nat) (pre : List Effect)
    (r : StepResult) (h : walk env W c pre = some r) :
    (r.storage = ⟨none, none⟩ ∧ r.effects = pre ++ [Effect.alert doneMsg]) ∨
    (r.storage = ⟨some W, some c⟩ ∧
      ∃ m u, r.effects = pre ++ [Effect.logMsg m, Effect.navigate u]) ∨
    (r.storage = ⟨some W, some (c + 1)⟩ ∧
      ∃ m, r.effects = pre ++ [Effect.warn m, Effect.reload]) ∨
    (r.storage = ⟨some W, some (c + 1)⟩ ∧
      ∃ m u, r.effects =
        pre ++ [Effect.logMsg m, Effect.download u, Effect.sleep 3000, Effect.reload]) := by
  unfold walk at h
  split at h
  · injection h with h2
    subst h2
    exact Or.inl ⟨rfl, rfl⟩
  · split at h
    · exact absurd h (by simp)
    · split at h
      · injection h with h2
        subst h2
        exact Or.inr (Or.inl ⟨rfl, _, _, rfl⟩)
      · split at h
        · exact absurd h (by simp)
        · injection h with h2
          subst h2
          unfold processListing
          split
          · exact Or.inr (Or.inr (Or.inl ⟨rfl, _, rfl⟩))
          · exact Or.inr (Or.inr (Or.inr ⟨rfl, _, _, rfl⟩))

end Walker

namespace Walker

/-- Inversion for `step`: every successful invocation's effect trace is an
input-collection prefix `pre` (empty, or prompt-plus-alert) followed by
nothing (input collection halted), the completion alert, a navigation, the
not-found warn-and-reload, or the log/download/sleep/reload sequence. -/
theorem step_trace (env : Env) (s : Storage) (r : StepResult) (h : step env s = some r) :
    ∃ pre, (pre = [] ∨ ∃ m, pre = [Effect.prompt promptMsg, Effect.alert m]) ∧
      (r.effects = pre ∨
       r.effects = pre ++ [Effect.alert doneMsg] ∨
       (∃ m u, r.effects = pre ++ [Effect.logMsg m, Effect.navigate u]) ∨
       (∃ m, r.effects = pre ++ [Effect.warn m, Effect.reload]) ∨
       (∃ m u, r.effects =
         pre ++ [Effect.logMsg m, Effect.download u, Effect.sleep 3000, Effect.reload])) := by
  unfold step at h
  split at h
  · split at h
    · exact absurd h (by simp)
    · rcases walk_cases _ _ _ _ _ h with ⟨_, he⟩ | ⟨_, m, u, he⟩ | ⟨_, m, he⟩ | ⟨_, m, u, he⟩
      · exact ⟨[], Or.inl rfl, Or.inr (Or.inl he)⟩
      · exact ⟨[], Or.inl rfl, Or.inr (Or.inr (Or.inl ⟨m, u, he⟩))⟩
      · exact ⟨[], Or.inl rfl, Or.inr (Or.inr (Or.inr (Or.inl ⟨m, he⟩)))⟩
      · exact ⟨[], Or.inl rfl, Or.inr (Or.inr (Or.inr (Or.inr ⟨m, u, he⟩)))⟩
  · split at h
    · injection h with h2
      subst h2
      exact ⟨_, Or.inr ⟨noneEnteredMsg, rfl⟩, Or.inl rfl⟩
    · split at h
      · injection h with h2
        subst h2
        exact ⟨_, Or.inr ⟨noneEnteredMsg, rfl⟩, Or.inl rfl⟩
      · split at h
        · injection h with h2
          subst h2
          exact ⟨_, Or.inr ⟨noValidMsg, rfl⟩, Or.inl rfl⟩
        · rcases walk_cases _ _ _ _ _ h with ⟨_, he⟩ | ⟨_, m, u, he⟩ | ⟨_, m, he⟩ | ⟨_, m, u, he⟩
          · exact ⟨_, Or.inr ⟨_, rfl⟩, Or.inr (Or.inl he)⟩
          · exact ⟨_, Or.inr ⟨_, rfl⟩, Or.inr (Or.inr (Or.inl ⟨m, u, he⟩))⟩
          · exact ⟨_, Or.inr ⟨_, rfl⟩, Or.inr (Or.inr (Or.inr (Or.inl ⟨m, he⟩)))⟩
          · exact ⟨_, Or.inr ⟨_, rfl⟩, Or.inr (Or.inr (Or.inr (Or.inr ⟨m, u, he⟩)))⟩

end Walker

namespace Walker

/-! ## Claims C2, C3, C5 -/

/-- C2: whenever an invocation starting from persisted worklist `W` and
cursor `c` processes the item (reaches a reload, i.e. the found or
not-found outcome), the persisted cursor afterwards is exactly `c + 1`;
and no invocation ever decreases the persisted cursor — it is left
unchanged, incremented by one, or cleared together with the worklist. -/
theorem claim2_cursorMonotone (env : Env) (W : List String) (c : Nat) (r : StepResult)
    (h : step env ⟨some W, some c⟩ = some r) :
    (Effect.reload ∈ r.effects → r.storage.idx = some (c + 1)) ∧
    (r.storage.idx = none ∨ ∃ c2, r.storage.idx = some c2 ∧ c ≤ c2) := by
  have h2 : walk env W c [] = some r := h
  rcases walk_cases _ _ _ _ _ h2 with ⟨hs, he⟩ | ⟨hs, m, u, he⟩ | ⟨hs, m, he⟩ | ⟨hs, m, u, he⟩
  · exact ⟨fun hmem => absurd hmem (by simp [he]), Or.inl (by simp [hs])⟩
  · exact ⟨fun hmem => absurd hmem (by simp [he]), Or.inr ⟨c, by simp [hs], le_refl c⟩⟩
  · exact ⟨fun _ => by simp [hs], Or.inr ⟨c + 1, by simp [hs], Nat.le_succ c⟩⟩
  · exact ⟨fun _ => by simp [hs], Or.inr ⟨c + 1, by simp [hs], Nat.le_succ c⟩⟩

theorem claim2_cursorMonotone_witness :
    ((Effect.reload ∈ [Effect.warn (noRpmMsg "zzznotreal"), Effect.reload] →
      (Storage.mk (some ["zzznotreal"]) (some 1)).idx = some (0 + 1)) ∧
     ((Storage.mk (some ["zzznotreal"]) (some 1)).idx = none ∨
      ∃ c2, (Storage.mk (some ["zzznotreal"]) (some 1)).idx = some c2 ∧ 0 ≤ c2)) :=
  claim2_cursorMonotone
    ⟨"/pub/epel/9/Everything/x86_64/Packages/z/", "h", [], none⟩ ["zzznotreal"] 0
    ⟨⟨some ["zzznotreal"], some 1⟩, [Effect.warn (noRpmMsg "zzznotreal"), Effect.reload]⟩
    (by decide)

/-- C3, counterexample: an invocation whose item is not found restarts
(reloads) with **no** pause in its trace — the single fixed pause does not
precede every restart. -/
theorem claim3_counterexample :
    step ⟨"/pub/epel/9/Everything/x86_64/Packages/z/", "h", [], none⟩
        ⟨some ["zzznotreal"], some 0⟩ =
      some ⟨⟨some ["zzznotreal"], some 1⟩,
        [Effect.warn (noRpmMsg "zzznotreal"), Effect.reload]⟩ ∧
    Effect.reload ∈ [Effect.warn (noRpmMsg "zzznotreal"), Effect.reload] ∧
    Effect.sleep 3000 ∉ [Effect.warn (noRpmMsg "zzznotreal"), Effect.reload] := by
  decide

/-- C3 as amended: the single fixed 3000 ms pause precedes the restart
only in the found-and-downloaded outcome (where the trace ends
`log, download, sleep 3000, reload`); the not-found restart happens
immediately, with no pause anywhere in its trace. -/
theorem claim3_pauseOnlyWhenDownloaded (env : Env) (s : Storage) (r : StepResult)
    (h : step env s = some r) :
    ((∃ u, Effect.download u ∈ r.effects) →
      ∃ pre m u, r.effects =
        pre ++ [Effect.logMsg m, Effect.download u, Effect.sleep 3000, Effect.reload]) ∧
    ((Effect.reload ∈ r.effects ∧ ∀ u, Effect.download u ∉ r.effects) →
      Effect.sleep 3000 ∉ r.effects) := by
  rcases step_trace env s r h with ⟨pre, hpre, hsh⟩
  have hpre2 : ∀ e, e ∈ pre → (∃ m, e = Effect.prompt m) ∨ ∃ m, e = Effect.alert m := by
    rcases hpre with hp | ⟨m, hp⟩ <;> subst hp
    · simp
    · intro e he
      rcases List.mem_pair.mp he with h1 | h1 <;> [exact Or.inl ⟨_, h1⟩; exact Or.inr ⟨_, h1⟩]
  constructor
  · rintro ⟨u, hu⟩
    rcases hsh with he | he | ⟨m, v, he⟩ | ⟨m, he⟩ | ⟨m, v, he⟩
    · rw [he] at hu
      rcases hpre2 _ hu with ⟨_, h1⟩ | ⟨_, h1⟩ <;> cases h1
    · rw [he] at hu
      rcases List.mem_append.mp hu with h1 | h1
      · rcases hpre2 _ h1 with ⟨_, h2⟩ | ⟨_, h2⟩ <;> cases h2
      · simp at h1
    · rw [he] at hu
      rcases List.mem_append.mp hu with h1 | h1
      · rcases hpre2 _ h1 with ⟨_, h2⟩ | ⟨_, h2⟩ <;> cases h2
      · simp at h1
    · rw [he] at hu
      rcases List.mem_append.mp hu with h1 | h1
      · rcases hpre2 _ h1 with ⟨_, h2⟩ | ⟨_, h2⟩ <;> cases h2
      · simp at h1
    · exact ⟨pre, m, v, he⟩
  · rintro ⟨hrel, hnodl⟩ hsl
    rcases hsh with he | he | ⟨m, v, he⟩ | ⟨m, he⟩ | ⟨m, v, he⟩
    · rw [he] at hsl
      rcases hpre2 _ hsl with ⟨_, h2⟩ | ⟨_, h2⟩ <;> cases h2
    · rw [he] at hsl
      rcases List.mem_append.mp hsl with h1 | h1
      · rcases hpre2 _ h1 with ⟨_, h2⟩ | ⟨_, h2⟩ <;> cases h2
      · simp at h1
    · rw [he] at hsl
      rcases List.mem_append.mp hsl with h1 | h1
      · rcases hpre2 _ h1 with ⟨_, h2⟩ | ⟨_, h2⟩ <;> cases h2
      · simp at h1
    · rw [he] at hsl
      rcases List.mem_append.mp hsl with h1 | h1
      · rcases hpre2 _ h1 with ⟨_, h2⟩ | ⟨_, h2⟩ <;> cases h2
      · simp at h1
    · exact hnodl v (by simp [he])

theorem claim3_pauseOnlyWhenDownloaded_witness :
    ∃ pre m u,
      (StepResult.mk ⟨some ["nano"], some 1⟩
        [Effect.logMsg (downloadingMsg ("h" ++ "nano-1.rpm")),
         Effect.download ("h" ++ "nano-1.rpm"), Effect.sleep 3000, Effect.reload]).effects =
      pre ++ [Effect.logMsg m, Effect.download u, Effect.sleep 3000, Effect.reload] :=
  (claim3_pauseOnlyWhenDownloaded
    ⟨"/pub/epel/9/Everything/x86_64/Packages/n/", "h", [some "nano-1.rpm"], none⟩
    ⟨some ["nano"], some 0⟩
    ⟨⟨some ["nano"], some 1⟩,
      [Effect.logMsg (downloadingMsg ("h" ++ "nano-1.rpm")),
       Effect.download ("h" ++ "nano-1.rpm"), Effect.sleep 3000, Effect.reload]⟩
    (by decide)).1 ⟨"h" ++ "nano-1.rpm", by decide⟩

end Walker

namespace Walker

/-- The target the script picks is the first anchor (in document order)
whose `href` passes the filter. -/
theorem locateTarget_eq_find (atoms : List Atom) (l : List (Option String)) :
    locateTarget atoms l = (l.find? (hrefOk atoms)).bind (fun o => o) := by
  induction l with
  | nil => rfl
  | cons o l ih =>
    cases ho : hrefOk atoms o with
    | false =>
      have hml : matchedLinks atoms (o :: l) = matchedLinks atoms l := by
        simp [matchedLinks, List.filter_cons, ho]
      rw [locateTarget, hml, List.find?_cons_of_neg _ (by simp [ho])]
      exact ih
    | true =>
      cases o with
      | none => simp [hrefOk] at ho
      | some str =>
        rw [locateTarget, List.find?_cons_of_pos _ ho]
        simp [matchedLinks, List.filter_cons, ho]

/-- C5: the download side effect happens exactly once per matched target —
the listing-search step (lines 63–92) emits exactly one download, for the
first matching anchor in document order, and none when nothing matches;
`locateTarget` is the first anchor passing the filter and is deterministic
in the listing; and a whole invocation never emits more than one
download. -/
theorem claim5_downloadOnce :
    (∀ atoms (l : List (Option String)),
        locateTarget atoms l = (l.find? (hrefOk atoms)).bind (fun o => o)) ∧
    (∀ atoms (l l2 : List (Option String)), l = l2 →
        locateTarget atoms l = locateTarget atoms l2) ∧
    (∀ env W c pkg atoms,
        downloadsOf (processListing env W c pkg atoms).effects =
          match locateTarget atoms env.anchors with
          | some t => [env.href ++ t]
          | none => []) ∧
    (∀ env s r, step env s = some r → (downloadsOf r.effects).length ≤ 1) := by
  refine ⟨locateTarget_eq_find, fun atoms l l2 hl => by rw [hl], ?_, ?_⟩
  · intro env W c pkg atoms
    unfold processListing locateTarget
    cases hm : matchedLinks atoms env.anchors with
    | nil => simp [downloadsOf]
    | cons f rest => simp [downloadsOf]
  · intro env s r h
    rcases step_trace env s r h with ⟨pre, hpre, hsh⟩
    have hdpre : downloadsOf pre = [] := by
      rcases hpre with hp | ⟨m, hp⟩ <;> subst hp <;> rfl
    have hda : ∀ xs, downloadsOf (pre ++ xs) = downloadsOf xs := by
      intro xs
      simp only [downloadsOf] at hdpre ⊢
      rw [List.filterMap_append, hdpre, List.nil_append]
    rcases hsh with he | he | ⟨m, u, he⟩ | ⟨m, he⟩ | ⟨m, u, he⟩ <;> rw [he]
    · rw [hdpre]
      exact Nat.zero_le 1
    all_goals rw [hda]
    all_goals simp [downloadsOf]

theorem claim5_downloadOnce_witness :
    downloadsOf (processListing ⟨"p", "h", [none, some "x-doc-1.rpm", some "x-1.rpm"], none⟩
        ["x"] 0 "x" [Atom.lit 'x']).effects =
      (match locateTarget [Atom.lit 'x'] [none, some "x-doc-1.rpm", some "x-1.rpm"] with
       | some t => ["h" ++ t]
       | none => []) ∧
    locateTarget [Atom.lit 'x'] [some "x-1.rpm"] = locateTarget [Atom.lit 'x'] [some "x-1.rpm"] :=
  ⟨claim5_downloadOnce.2.2.1 ⟨"p", "h", [none, some "x-doc-1.rpm", some "x-1.rpm"], none⟩
      ["x"] 0 "x" [Atom.lit 'x'],
   claim5_downloadOnce.2.1 [Atom.lit 'x'] [some "x-1.rpm"] [some "x-1.rpm"] rfl⟩

end Walker

namespace Walker

/-! ## Claim C4: the matching predicate -/

/-- A spliced name without metacharacters compiles to its case-folded
literal atoms. -/
theorem compileAtoms_literal (ps : List Char) (h : ∀ c ∈ ps, c ∉ regexMeta) :
    compileAtoms ps = some (ps.map (fun c => Atom.lit c.toLower)) := by
  induction ps with
  | nil => rfl
  | cons c rest ih =>
    have hc : c ∉ regexMeta := h c (by simp)
    have h1 : ¬ c = '\\' := fun he => hc (by rw [he]; simp [regexMeta])
    have h2 : ¬ c = '.' := fun he => hc (by rw [he]; simp [regexMeta])
    rw [compileAtoms.eq_def]
    simp only [h1, if_false, h2, hc, if_neg, ite_false]
    rw [ih (fun d hd => h d (by simp [hd]))]
    rfl

/-- Literal atoms match a character list exactly when the case-folded
lists agree. -/
theorem matchesAtoms_lit (ps : List Char) : ∀ cs : List Char,
    matchesAtoms (ps.map (fun c => Atom.lit c.toLower)) cs = true ↔
      lowerList cs = lowerList ps := by
  induction ps with
  | nil => intro cs; cases cs <;> simp [matchesAtoms, lowerList]
  | cons p rest ih =>
    intro cs
    cases cs with
    | nil => simp [matchesAtoms, lowerList]
    | cons c cs =>
      simp only [List.map_cons, matchesAtoms, atomMatches, Bool.and_eq_true, beq_iff_eq,
        ih cs, lowerList, List.cons.injEq]
      exact and_congr_left (fun _ => eq_comm)

theorem lowerList_append (a b : List Char) : lowerList (a ++ b) = lowerList a ++ lowerList b :=
  List.map_append Char.toLower a b

theorem lowerList_length (a : List Char) : (lowerList a).length = a.length :=
  List.length_map a Char.toLower

/-- C4, counterexample: the claim's reading fails for item names
containing regex metacharacters — for item `"a.b"` the predicate accepts
`"axb-1.rpm"`, which does not start with `"a.b"`. -/
theorem claim4_counterexample :
    rpmTest "a.b" "axb-1.rpm" = some true ∧ specMatch "a.b" "axb-1.rpm" = false := by
  decide

end Walker


namespace Walker

theorem lowerList_take (l : List Char) (k : Nat) :
    lowerList (l.take k) = (lowerList l).take k := List.map_take Char.toLower l k

theorem lowerList_drop (l : List Char) (k : Nat) :
    lowerList (l.drop k) = (lowerList l).drop k := List.map_drop Char.toLower l k

/-- For a literal-atom pattern the constructed regex is exactly the
spec's prefix/suffix test, provided the subject has no line
terminators. -/
theorem rpmMatch_literal (ps cs : List Char) (hnl : ∀ c ∈ cs, isLineTerm c = false) :
    rpmMatch (ps.map (fun c => Atom.lit c.toLower)) cs =
      (startsWithL (lowerList ps ++ ['-']) (lowerList cs) &&
       endsWithL ['.', 'r', 'p', 'm'] (lowerList cs)) := by
  have hatlen : (ps.map (fun c => Atom.lit c.toLower)).length = ps.length :=
    List.length_map ps _
  have hlpn : (lowerList ps).length = ps.length := lowerList_length ps
  have hlfn : (lowerList cs).length = cs.length := lowerList_length cs
  have hplen : (lowerList ps ++ ['-']).length = ps.length + 1 := by simp [hlpn]
  have h4 : (['.', 'r', 'p', 'm'] : List Char).length = 4 := rfl
  rw [Bool.eq_iff_iff, Bool.and_eq_true, startsWithL, endsWithL, beq_iff_eq, beq_iff_eq,
    hplen, h4]
  constructor
  · intro h
    rw [rpmMatch, hatlen, Bool.and_eq_true] at h
    obtain ⟨h1, h2⟩ := h
    rw [matchesAtoms_lit] at h1
    cases hd : cs.drop ps.length with
    | nil => rw [hd] at h2; simp at h2
    | cons c rest =>
      rw [hd] at h2
      simp only [Bool.and_eq_true, beq_iff_eq, decide_eq_true_eq] at h2
      obtain ⟨⟨⟨hdash, hlen4⟩, _hmid⟩, hsuf⟩ := h2
      have hsplit : cs.take ps.length ++ c :: rest = cs := by
        rw [← hd]; exact List.take_append_drop ps.length cs
      have hdec : lowerList cs = (lowerList ps ++ ['-']) ++ lowerList rest := by
        rw [← hsplit, lowerList_append, h1,
          show lowerList (c :: rest) = c.toLower :: lowerList rest from rfl,
          hdash, List.append_assoc]
        rfl
      have hulen : (lowerList rest).length = rest.length := lowerList_length rest
      constructor
      · rw [hdec]
        exact List.take_left' (by simp [hlpn])
      · have harith : (lowerList cs).length - 4 =
            (lowerList ps ++ ['-']).length + (rest.length - 4) := by
          rw [hdec]
          simp only [List.length_append, List.length_cons, List.length_nil, hlpn, hulen]
          omega
        rw [harith, hdec, List.drop_append, ← lowerList_drop, hsuf]
  · rintro ⟨hpre, hsuf⟩
    have hlen1 : ps.length + 1 ≤ cs.length := by
      have h5 := congrArg List.length hpre
      simp only [List.length_take, List.length_append, List.length_cons, List.length_nil,
        hlpn, hlfn] at h5
      omega
    cases hd : cs.drop ps.length with
    | nil =>
      exfalso
      have h5 := congrArg List.length hd
      simp only [List.length_drop, List.length_nil] at h5
      omega
    | cons c rest =>
      have hsplit : cs.take ps.length ++ c :: rest = cs := by
        rw [← hd]; exact List.take_append_drop ps.length cs
      have hrlen : cs.length = ps.length + 1 + rest.length := by
        have h5 := congrArg List.length hsplit
        simp only [List.length_append, List.length_cons, List.length_take] at h5
        omega
      have hlfdec : lowerList cs =
          (lowerList ps ++ ['-']) ++ (lowerList cs).drop (ps.length + 1) := by
        conv_lhs => rw [← List.take_append_drop (ps.length + 1) (lowerList cs)]
        rw [hpre]
      have hlfcons : lowerList cs =
          lowerList ps ++ '-' :: (lowerList cs).drop (ps.length + 1) := by
        conv_lhs => rw [hlfdec]
        rw [List.append_assoc, List.singleton_append]
      have hdropn : (lowerList cs).drop ps.length =
          '-' :: (lowerList cs).drop (ps.length + 1) := by
        conv_lhs => rw [hlfcons]
        exact List.drop_left' hlpn
      have hdropn2 : (lowerList cs).drop ps.length = c.toLower :: lowerList rest := by
        rw [← lowerList_drop, hd]
        rfl
      have hconj := (List.cons.injEq _ _ _ _).mp (hdropn2.symm.trans hdropn)
      have hdash : c.toLower = '-' := hconj.1
      have hvrest : lowerList rest = (lowerList cs).drop (ps.length + 1) := hconj.2
      have hrest4 : 4 ≤ rest.length := by
        by_contra hlt
        push_neg at hlt
        have hgetn : (lowerList cs)[ps.length]? = some '-' := by
          rw [hlfcons, ← hlpn, List.getElem?_append_right (le_refl _)]
          simp
        obtain ⟨j, hj4, hkj⟩ : ∃ j, j < 4 ∧ (lowerList cs).length - 4 + j = ps.length :=
          ⟨ps.length - ((lowerList cs).length - 4), by omega, by omega⟩
        have hget2 := List.getElem?_drop (lowerList cs) ((lowerList cs).length - 4) j
        rw [hsuf, hkj, hgetn] at hget2
        interval_cases j <;> exact absurd hget2 (by decide)
      have htaken : lowerList (cs.take ps.length) = lowerList ps := by
        rw [lowerList_take,
          show (lowerList cs).take ps.length =
            ((lowerList cs).take (ps.length + 1)).take ps.length by
              rw [List.take_take, min_eq_left (Nat.le_succ ps.length)],
          hpre]
        exact List.take_left' hlpn
      have hmid : (rest.take (rest.length - 4)).all (fun d => !(isLineTerm d)) = true := by
        rw [List.all_eq_true]
        intro x hx
        have hx1 : x ∈ rest := List.take_subset _ _ hx
        have hx2 : x ∈ cs.drop ps.length := by rw [hd]; exact List.mem_cons_of_mem c hx1
        rw [hnl x (List.drop_subset ps.length cs hx2)]
        rfl
      have hsufr : lowerList (rest.drop (rest.length - 4)) = ['.', 'r', 'p', 'm'] := by
        rw [lowerList_drop, hvrest, List.drop_drop,
          show ps.length + 1 + (rest.length - 4) = (lowerList cs).length - 4 by omega,
          hsuf]
      rw [rpmMatch, hatlen, hd, Bool.and_eq_true]
      refine ⟨(matchesAtoms_lit ps _).mpr htaken, ?_⟩
      simp only [Bool.and_eq_true, beq_iff_eq, decide_eq_true_eq]
      exact ⟨⟨⟨hdash, hrest4⟩, hmid⟩, hsufr⟩

/-- C4 as amended: for item names made of regex-literal characters, and
filenames containing no line terminators, the constructed predicate
matches exactly when the filename starts with the item name followed by
the `-` separator and ends in the fixed `.rpm` extension, compared
case-insensitively.  (For names containing metacharacters the spliced
characters keep their regex meaning and the equivalence fails:
`claim4_counterexample`.) -/
theorem claim4_matchCharacterization (pkg f : String)
    (hlit : ∀ c ∈ pkg.toList, c ∉ regexMeta)
    (hnl : ∀ c ∈ f.toList, isLineTerm c = false) :
    rpmTest pkg f = some (specMatch pkg f) := by
  rw [rpmTest, compileAtoms_literal pkg.toList hlit, Option.map_some',
    rpmMatch_literal pkg.toList f.toList hnl]
  rfl

theorem claim4_matchCharacterization_witness :
    rpmTest "nano" "nano-6.2-1.el9.x86_64.rpm" =
      some (specMatch "nano" "nano-6.2-1.el9.x86_64.rpm") :=
  claim4_matchCharacterization "nano" "nano-6.2-1.el9.x86_64.rpm" (by decide) (by decide)

end Walker

/-! ## The table-scrape script (`get-epo-packages-list.js`) -/

namespace Scraper

open Walker (jsTrim)

/-- The scraped grid: the header row's cell texts and each body row's
cell texts (the `innerText` of the header `td`/`th` elements and of each
body row's `td` elements, in document order). -/
structure Grid where
  headerCells : List String
  rows : List (List String)

/-- Lines 8–10: header names, trimmed, empty ones removed. -/
def headersOf (headerCells : List String) : List String :=
  (headerCells.map jsTrim).filter (fun t => t != "")

/-- `cells.map((cell, i) => [headers[i], cell])` (line 15): an
out-of-range header index is JS `undefined`, which the object coerces to
the key `"undefined"`. -/
def rowEntriesAux (headers : List String) (i : Nat) : List String → List (String × String)
  | [] => []
  | c :: cs => ((headers[i]?).getD "undefined", c) :: rowEntriesAux headers (i + 1) cs

/-- Line 13 and 15: trim the row's cells, drop the first one, pair the
rest with the header names by position. -/
def rowEntries (headers : List String) (cells : List String) : List (String × String) :=
  rowEntriesAux headers 0 ((cells.map jsTrim).drop 1)

/-- The object's key set, in first-insertion order. -/
def dedupKeys : List String → List String
  | [] => []
  | k :: ks => k :: (dedupKeys ks).filter (fun x => x != k)

def objKeys (entries : List (String × String)) : List String :=
  dedupKeys (entries.map Prod.fst)

/-- Property read on the object `Object.fromEntries` builds: the last
entry for a key wins. -/
def objLookup (entries : List (String × String)) (k : String) : Option String :=
  (entries.reverse.find? (fun e => e.1 == k)).map Prod.snd

/-- `Object.values`: one value per key, in key order. -/
def objValues (entries : List (String × String)) : List String :=
  (objKeys entries).filterMap (fun k => objLookup entries k)

/-- Lines 8–22: headers, per-row records, the `Object.values(row).some(...)`
row filter, and the joined CSV text. -/
def csvOf (headerCells : List String) (rows : List (List String)) : String :=
  String.intercalate "\n"
    (String.intercalate "," (headersOf headerCells) ::
     ((rows.map (fun row => rowEntries (headersOf headerCells) row)).filter
        (fun row => (objValues row).any (fun v => v != ""))).map
       (fun row => String.intercalate ","
         ((headersOf headerCells).map (fun h => (objLookup row h).getD ""))))

/-- The whole script (lines 1–32): `none` when the table or header row is
missing (only an error is logged); otherwise the CSV text together with
the fixed download filename `data.csv`. -/
def scrape (grid : Option Grid) : Option (String × String) :=
  grid.map (fun g => (csvOf g.headerCells g.rows, "data.csv"))

/-- The pipeline as the claim words it: drop the first column of the grid
(header row and body rows alike), drop rows whose values are all empty,
and serialize one header line plus one line per remaining row. -/
def specCsvOf (headerCells : List String) (rows : List (List String)) : String :=
  String.intercalate "\n"
    (String.intercalate "," ((headerCells.map jsTrim).drop 1) ::
     ((rows.map (fun row => (row.map jsTrim).drop 1)).filter
        (fun row => row.any (fun v => v != ""))).map
       (fun row => String.intercalate "," row))

/-- C9, counterexample: the script does not drop the grid's first column —
it keeps every non-empty header name and drops only the first cell of
each body row, so for a grid whose first header is non-empty the output
keeps that header and misaligns the columns, unlike the claimed
pipeline. -/
theorem claim9_counterexample :
    csvOf ["A", "B"] [["x", "y"]] = "A,B\ny," ∧
    specCsvOf ["A", "B"] [["x", "y"]] = "B\ny" ∧
    csvOf ["A", "B"] [["x", "y"]] ≠ specCsvOf ["A", "B"] [["x", "y"]] := by
  refine ⟨rfl, rfl, ?_⟩
  decide

end Scraper

namespace Scraper

open Walker (jsTrim)

theorem rowEntriesAux_zip (hd : List String) : ∀ (cl : List String) (i : Nat),
    i + cl.length ≤ hd.length → rowEntriesAux hd i cl = (hd.drop i).zip cl := by
  intro cl
  induction cl with
  | nil => intro i _; simp [rowEntriesAux]
  | cons c cs ih =>
    intro i hle
    have hi : i < hd.length := by
      rw [List.length_cons] at hle
      omega
    rw [rowEntriesAux, List.getElem?_eq_getElem hi, Option.getD_some,
      List.drop_eq_getElem_cons hi, List.zip_cons_cons,
      ih (i + 1) (by rw [List.length_cons] at hle; omega)]

theorem objLookup_cons_self (es : List (String × String)) (h c : String)
    (hnot : ∀ e ∈ es, e.1 ≠ h) : objLookup ((h, c) :: es) h = some c := by
  rw [objLookup, List.reverse_cons, List.find?_append]
  have h1 : es.reverse.find? (fun e => e.1 == h) = none := by
    rw [List.find?_eq_none]
    intro e he
    simpa using hnot e (List.mem_reverse.mp he)
  rw [h1, Option.none_or, List.find?_cons_of_pos _ (by simp)]
  rfl

theorem objLookup_cons_ne (es : List (String × String)) (h c k : String)
    (hne : k ≠ h) : objLookup ((h, c) :: es) k = objLookup es k := by
  rw [objLookup, objLookup, List.reverse_cons, List.find?_append]
  have h1 : List.find? (fun e => e.1 == k) [(h, c)] = none := by
    rw [List.find?_eq_none]
    intro e he
    rw [List.mem_singleton] at he
    subst he
    simp [Ne.symm hne]
  rw [h1, Option.or_none]

theorem zip_lookup (hd : List String) : ∀ (cl : List String), hd.Nodup →
    cl.length = hd.length →
    hd.map (fun k => objLookup (hd.zip cl) k) = cl.map some := by
  induction hd with
  | nil =>
    intro cl _ hlen
    rw [List.length_nil, List.length_eq_zero] at hlen
    rw [hlen]
    rfl
  | cons h hd ih =>
    intro cl hnd hlen
    cases cl with
    | nil => simp at hlen
    | cons c cl =>
      rw [List.zip_cons_cons, List.map_cons]
      have hnoth : ∀ e ∈ hd.zip cl, e.1 ≠ h := by
        intro e he
        obtain ⟨a, b⟩ := e
        have ha := (List.of_mem_zip he).1
        exact fun hah => (List.nodup_cons.mp hnd).1 (hah ▸ ha)
      rw [objLookup_cons_self _ _ _ hnoth]
      have hmap : hd.map (fun k => objLookup ((h, c) :: hd.zip cl) k) =
          hd.map (fun k => objLookup (hd.zip cl) k) := by
        apply List.map_congr_left
        intro k hk
        exact objLookup_cons_ne _ _ _ _ (fun hkh => (List.nodup_cons.mp hnd).1 (hkh ▸ hk))
      rw [hmap, ih cl (List.nodup_cons.mp hnd).2 (by simpa using hlen)]
      rfl

theorem filterMap_of_map_some (l : List String) : ∀ (cl : List String)
    (f : String → Option String), l.map f = cl.map some → l.filterMap f = cl := by
  induction l with
  | nil =>
    intro cl f h
    cases cl with
    | nil => rfl
    | cons c cl => simp at h
  | cons a l ih =>
    intro cl f h
    cases cl with
    | nil => simp at h
    | cons c cl =>
      rw [List.map_cons, List.map_cons] at h
      have h1 : f a = some c := (List.cons.injEq _ _ _ _ |>.mp h).1
      have h2 : l.map f = cl.map some := (List.cons.injEq _ _ _ _ |>.mp h).2
      simp [List.filterMap_cons, h1, ih cl f h2]

theorem dedupKeys_nodup_eq (l : List String) (h : l.Nodup) : dedupKeys l = l := by
  induction l with
  | nil => rfl
  | cons k ks ih =>
    have hall : ∀ x ∈ ks, (x != k) = true := by
      intro x hx
      exact bne_iff_ne.mpr (fun hxk => (List.nodup_cons.mp h).1 (hxk ▸ hx))
    rw [dedupKeys, ih (List.nodup_cons.mp h).2, List.filter_eq_self.mpr hall]

theorem objValues_zip (hd cl : List String) (hnd : hd.Nodup)
    (hlen : cl.length = hd.length) : objValues (hd.zip cl) = cl := by
  rw [objValues, objKeys, List.map_fst_zip hd cl (le_of_eq hlen.symm),
    dedupKeys_nodup_eq hd hnd]
  exact filterMap_of_map_some hd cl _ (zip_lookup hd cl hnd hlen)

theorem lookup_line_zip (hd cl : List String) (hnd : hd.Nodup)
    (hlen : cl.length = hd.length) :
    hd.map (fun h => (objLookup (hd.zip cl) h).getD "") = cl := by
  have h2 : hd.map (fun h => (objLookup (hd.zip cl) h).getD "") =
      (hd.map (fun k => objLookup (hd.zip cl) k)).map (fun o => o.getD "") := by
    rw [List.map_map]
    rfl
  rw [h2, zip_lookup hd cl hnd hlen, List.map_map]
  have h3 : ((fun o : Option String => o.getD "") ∘ some) = id := rfl
  rw [h3, List.map_id]

end Scraper

namespace Scraper

open Walker (jsTrim)

/-- C9 as amended: the script drops the first *cell of each body row* and
separately removes *empty trimmed* header names — it does not drop the
header row's first column as such.  For grids shaped like the target page
(blank first header cell, remaining trimmed header names non-empty and
distinct, each body row one cell wider than the kept headers) the output
coincides with the claimed drop-the-first-column pipeline: per-row
header→cell mappings, fully-empty rows removed, one header line plus one
line per remaining row; and the text is exposed as a download named
`data.csv`. -/
theorem claim9_csvPipeline (h0 : String) (hs : List String) (rows : List (List String))
    (hh0 : jsTrim h0 = "")
    (hne : ∀ h ∈ hs, jsTrim h ≠ "")
    (hnd : (hs.map jsTrim).Nodup)
    (hlen : ∀ row ∈ rows, row.length = hs.length + 1) :
    csvOf (h0 :: hs) rows = specCsvOf (h0 :: hs) rows ∧
    (∀ g : Grid, scrape (some g) = some (csvOf g.headerCells g.rows, "data.csv")) := by
  refine ⟨?_, fun g => rfl⟩
  have hH : headersOf (h0 :: hs) = hs.map jsTrim := by
    rw [headersOf, List.map_cons, List.filter_cons, hh0]
    have hcond : (("" : String) != "") = false := by decide
    rw [hcond]
    simp only [Bool.false_eq_true, if_false]
    apply List.filter_eq_self.mpr
    intro x hx
    obtain ⟨h, hh, rfl⟩ := List.mem_map.mp hx
    exact bne_iff_ne.mpr (hne h hh)
  have hHlen : (hs.map jsTrim).length = hs.length := List.length_map hs jsTrim
  have hcl : ∀ row ∈ rows, ((row.map jsTrim).drop 1).length = (hs.map jsTrim).length := by
    intro row hr
    rw [List.length_drop, List.length_map, hlen row hr, hHlen]
    omega
  have hrow : ∀ row ∈ rows,
      rowEntries (hs.map jsTrim) row = (hs.map jsTrim).zip ((row.map jsTrim).drop 1) := by
    intro row hr
    rw [rowEntries,
      show (hs.map jsTrim : List String) = (hs.map jsTrim).drop 0 from rfl]
    apply rowEntriesAux_zip
    simp only [List.drop_zero, List.length_drop, List.length_map, hlen row hr]
    omega
  have hhead : ((h0 :: hs).map jsTrim).drop 1 = hs.map jsTrim := by
    rw [List.map_cons]
    rfl
  rw [csvOf, specCsvOf, hH, hhead]
  congr 1
  congr 1
  rw [List.filter_map, List.filter_map, List.map_map, List.map_map]
  have hPQ : ∀ row ∈ rows,
      ((fun entries => (objValues entries).any (fun v => v != "")) ∘
        (fun row => rowEntries (hs.map jsTrim) row)) row =
      ((fun r => r.any (fun v => v != "")) ∘ (fun row => (row.map jsTrim).drop 1)) row := by
    intro row hr
    simp only [Function.comp_apply]
    rw [hrow row hr, objValues_zip _ _ hnd (hcl row hr)]
  rw [List.filter_congr hPQ]
  apply List.map_congr_left
  intro row hr2
  have hr : row ∈ rows := (List.mem_filter.mp hr2).1
  simp only [Function.comp_apply]
  rw [hrow row hr, lookup_line_zip _ _ hnd (hcl row hr)]

end Scraper

namespace Scraper

theorem claim9_csvPipeline_witness :
    csvOf [" ", "Name", "Version"] [["1", "nano", "6.2"], ["2", "", ""]] =
      specCsvOf [" ", "Name", "Version"] [["1", "nano", "6.2"], ["2", "", ""]] :=
  (claim9_csvPipeline " " ["Name", "Version"] [["1", "nano", "6.2"], ["2", "", ""]]
    (by decide) (by decide) (by decide) (by decide)).1

end Scraper
